import Mathlib

/-!
Verification development for the uv-smith regression-verification harness.

The Python sources are embedded shallowly:
* `ap.py` — `apply_patch_to_repo`, the prioritized patch-application fallback chain;
* `test.py` — `_normalize_tests` and `run_tests_on_repo`, the test verification engine;
* `uv_env.py` — `setup_environment`, the execution-environment provider;
* `run_eval.py` / `run1.py` — the orchestrator `main` functions and their
  `switch_to_commit` / restore logic.

Strings are modelled as `List Char` where character-level reasoning is needed
(Python `str.strip`, `str.split`, `str.replace`). External processes are
modelled by oracles mapping the command (or test identifier) to an outcome.
The filesystem, where it matters, is an association list from paths to file
contents; directories are implicit in paths.
-/

namespace UvSmith

/-! ## Character-level helpers (Python string semantics) -/

/-- The characters Python's `str.strip()` removes (`str.isspace` for ASCII
whitespace, which is what occurs in test identifiers). -/
def isPySpace (c : Char) : Bool :=
  c = ' ' || c = '\t' || c = '\n' || c = '\r' || c = '\x0b' || c = '\x0c'

/-- Python `s.strip()`: drop leading and trailing whitespace. -/
def pyStrip (s : List Char) : List Char :=
  ((s.dropWhile isPySpace).reverse.dropWhile isPySpace).reverse

/-- Python `s.split(sep)` for a one-character separator: `"".split(',') = ['']`. -/
def splitChar (sep : Char) : List Char → List (List Char)
  | [] => [[]]
  | c :: rest =>
    if c = sep then [] :: splitChar sep rest
    else
      match splitChar sep rest with
      | [] => [[c]]
      | p :: ps => (c :: p) :: ps

/-! ## `test.py` — `_normalize_tests` -/

/-- The two accepted representations of a batch of test identifiers:
a single delimited string, or a native sequence (Python `list`/`tuple`). -/
inductive TestsInput where
  | ofString (s : List Char)
  | ofSeq (l : List (List Char))
  deriving DecidableEq

/-- `test.py` `_normalize_tests`: a string is stripped, an enclosing
`[` … `]` pair is removed, and the result is split on `,` with each piece
stripped and empty pieces dropped; a sequence is returned as a list as-is. -/
def _normalize_tests : TestsInput → List (List Char)
  | .ofString s =>
    let s1 := pyStrip s
    let s2 :=
      if s1.head? = some '[' ∧ s1.getLast? = some ']' then (s1.drop 1).dropLast
      else s1
    ((splitChar ',' s2).map pyStrip).filter (· ≠ [])
  | .ofSeq l => l

/-- The delimited-string representation of a batch of identifiers:
comma-plus-space separated, bracket-wrapped — the string form of §3's
TestIdentifier collection, e.g. `"[a::b, c::d]"`. -/
def joinComma : List (List Char) → List Char
  | [] => []
  | [id] => id
  | id :: rest => id ++ ',' :: ' ' :: joinComma rest

/-- Bracket-wrapped delimited form of an identifier batch. -/
def delimitedForm (ids : List (List Char)) : List Char :=
  '[' :: (joinComma ids ++ [']'])

/-! ## `test.py` — log-file name encoding

`log_file = log_dir / f"{nodeid.replace('::', '__').replace('[','_').replace(']','')}.log"`
-/

/-- Python `s.replace("::", "__")`: greedy, left-to-right, non-overlapping. -/
def replaceDoubleColon : List Char → List Char
  | [] => []
  | [c] => [c]
  | c1 :: c2 :: rest =>
    if c1 = ':' ∧ c2 = ':' then '_' :: '_' :: replaceDoubleColon rest
    else c1 :: replaceDoubleColon (c2 :: rest)

/-- The inverse scan of `replaceDoubleColon`: greedy, left-to-right
replacement of `__` by `::`, used to show the encoding loses nothing on
identifiers free of the substitute characters. -/
def decodeUnderscores : List Char → List Char
  | [] => []
  | [c] => [c]
  | c1 :: c2 :: rest =>
    if c1 = '_' ∧ c2 = '_' then ':' :: ':' :: decodeUnderscores rest
    else c1 :: decodeUnderscores (c2 :: rest)

/-- Python `s.replace('[', '_')`. -/
def replaceLBracket (s : List Char) : List Char :=
  s.map fun c => if c = '[' then '_' else c

/-- Python `s.replace(']', '')`. -/
def dropRBracket (s : List Char) : List Char :=
  s.filter fun c => c ≠ ']'

/-- The filesystem-safe transform applied to a test identifier to name its
diagnostic log artifact (without the trailing `.log`). -/
def logStem (nodeid : List Char) : List Char :=
  dropRBracket (replaceLBracket (replaceDoubleColon nodeid))

/-! ## Filesystem model

An association list from paths (segment lists) to file contents. Directories
are implicit in paths; `mkdir` is therefore a no-op on the model. -/

/-- A filesystem path, as a list of segments. -/
abbrev FsPath := List String

/-- A filesystem: a finite map from paths to file contents. -/
abbrev FS := List (FsPath × String)

/-- Look up the content of a file. -/
def fsRead (fs : FS) (p : FsPath) : Option String :=
  (fs.find? fun e => e.1 = p).map (·.2)

/-- Write (create or overwrite) a file. -/
def fsWrite : FS → FsPath → String → FS
  | [], p, c => [(p, c)]
  | (q, d) :: rest, p, c =>
    if q = p then (q, c) :: rest else (q, d) :: fsWrite rest p c

/-- `q` is a path lying strictly inside the directory `d`. -/
def underDir (d : FsPath) (q : FsPath) : Prop :=
  q.take d.length = d ∧ d ≠ q

/-! ## `test.py` — `run_tests_on_repo` -/

/-- The outcome of one `subprocess.run` of the test runner: either the process
completes (with a return code and captured output), or the invocation raises
the error kind that `run_tests_on_repo`'s handler catches
(`subprocess.CalledProcessError`). Other exception kinds would propagate out
of the loop unhandled and are not part of this model. -/
inductive ExecOutcome where
  | normal (returncode : Int) (stdout stderr : String)
  | crash (msg : String)
  deriving DecidableEq

/-- Errors the embedded Python code can raise. -/
inductive PyErr where
  | fileNotFound (msg : String)
  | nameError
  deriving DecidableEq

/-- A Python `dict` preserving insertion order: updating an existing key keeps
its position, a new key is appended. -/
def dictInsert : List (List Char × Bool) → List Char → Bool → List (List Char × Bool)
  | [], k, v => [(k, v)]
  | (k', v') :: rest, k, v =>
    if k' = k then (k', v) :: rest else (k', v') :: dictInsert rest k v

/-- The verdict mapping type returned by the verification engine. -/
abbrev Verdicts := List (List Char × Bool)

/-- Python `results[nodeid]` read access. -/
def dictLookup (d : Verdicts) (k : List Char) : Option Bool :=
  (d.find? fun e => e.1 = k).map (·.2)

/-- The pytest command line built by `run_tests_on_repo` for one identifier. -/
def testCommand (envDir : String) (nodeid : List Char) : String :=
  "source ~/autodl-tmp/uv-smith1/" ++ envDir ++ "/bin/activate && " ++
    "pytest -q --disable-warnings --maxfail=1 " ++ String.mk nodeid

/-- The diagnostic log written on a completed run: command, stdout, stderr. -/
def logContent (envDir : String) (nodeid : List Char) (out err : String) : String :=
  "=== COMMAND ===\n" ++ testCommand envDir nodeid ++ "\n\n=== STDOUT ===\n" ++
    out ++ "\n\n=== STDERR ===\n" ++ err ++ "\n"

/-- The diagnostic log written when the invocation raised. -/
def errLogContent (msg : String) : String :=
  "=== ERROR ===\n" ++ msg ++ "\n"

/-- The classification on line
`passed = (proc.returncode != 0) if expect_fail else (proc.returncode == 0)`. -/
def classifyOutcome (expect_fail : Bool) (returncode : Int) : Bool :=
  if expect_fail then !(returncode == 0) else returncode == 0

/-- The path of the log file for one identifier:
`repo_dir / ".test_logs" / (encoded nodeid ++ ".log")`. -/
def logFilePath (repoDir : FsPath) (nodeid : List Char) : FsPath :=
  repoDir ++ [".test_logs", String.mk (logStem nodeid) ++ ".log"]

/-- The per-identifier loop of `run_tests_on_repo`. `passedVar` models the
Python local variable `passed`: it is assigned only on the non-raising path,
and `results[nodeid] = passed` sits outside the `try`, so on the raising path
the previous iteration's value is recorded (or, on the first iteration,
reading the unassigned local raises `NameError`/`UnboundLocalError`). -/
def runTestsLoop (repoDir : FsPath) (envDir : String) (expect_fail : Bool)
    (exec : List Char → ExecOutcome) :
    List (List Char) → Option Bool → Verdicts → FS → Except PyErr Verdicts × FS
  | [], _, results, fs => (.ok results, fs)
  | nodeid :: rest, passedVar, results, fs =>
    match exec nodeid with
    | .normal rc out err =>
      let passed := classifyOutcome expect_fail rc
      let fs' := fsWrite fs (logFilePath repoDir nodeid) (logContent envDir nodeid out err)
      runTestsLoop repoDir envDir expect_fail exec rest (some passed)
        (dictInsert results nodeid passed) fs'
    | .crash msg =>
      let fs' := fsWrite fs (logFilePath repoDir nodeid) (errLogContent msg)
      match passedVar with
      | none => (.error .nameError, fs')
      | some stale =>
        runTestsLoop repoDir envDir expect_fail exec rest (some stale)
          (dictInsert results nodeid stale) fs'

/-- `test.py` `run_tests_on_repo`. `repoIsDir` and `envExists` model the two
filesystem precondition checks (`repo_dir.is_dir()`, `env_dir.exists()`);
`exec` is the subprocess oracle giving each test invocation's outcome. The
function returns the verdict mapping (or the raised error) together with the
resulting filesystem. -/
def run_tests_on_repo (fs : FS) (repoIsDir envExists : Bool) (repoDir : FsPath)
    (envDir : String) (tests : TestsInput) (expect_fail : Bool)
    (exec : List Char → ExecOutcome) : Except PyErr Verdicts × FS :=
  if !repoIsDir then (.error (.fileNotFound "repo"), fs)
  else if !envExists then (.error (.fileNotFound "env"), fs)
  else runTestsLoop repoDir envDir expect_fail exec (_normalize_tests tests) none [] fs

/-! ## `ap.py` — `apply_patch_to_repo` -/

/-- The prioritized strategy list `GIT_APPLY_COMMANDS` from `ap.py`:
strict structural apply, lenient apply with reject markers, fuzzed textual
apply. -/
def GIT_APPLY_COMMANDS : List String :=
  ["git apply --verbose", "git apply --verbose --reject",
   "patch --batch --fuzz=5 -p1 -i"]

/-- The shell command built for one strategy:
`source {env_dir}/bin/activate && {cmd} {temp_file}` with ` --reverse`
appended when the reverse flag is set. -/
def fullCommand (envDir cmd tempFile : String) (reverse : Bool) : String :=
  "source " ++ envDir ++ "/bin/activate && " ++ cmd ++ " " ++ tempFile ++
    (if reverse then " --reverse" else "")

/-- The strategy loop of `apply_patch_to_repo`: try each command in order,
stop at the first whose process exits with status 0. Returns the outcome
together with the list of strategies actually invoked (the observable trace).
`run` is the subprocess oracle mapping a full shell command to its exit
status. -/
def tryCommands (run : String → Int) (envDir tempFile : String) (reverse : Bool) :
    List String → Bool × List String
  | [] => (false, [])
  | c :: cs =>
    if run (fullCommand envDir c tempFile reverse) = 0 then (true, [c])
    else
      let r := tryCommands run envDir tempFile reverse cs
      (r.1, c :: r.2)

/-- `ap.py` `apply_patch_to_repo`. `repoIsDir` models `repo_dir.is_dir()`,
`activateExists` models the existence check on `env_dir/bin/activate`; the
transient patch file (always removed in the `finally` block, success or not)
is abstracted by its name `tempFile`. -/
def apply_patch_to_repo (repoIsDir activateExists : Bool) (run : String → Int)
    (envDir tempFile : String) (reverse : Bool) : Except PyErr (Bool × List String) :=
  if !repoIsDir then .error (.fileNotFound "repo")
  else if !activateExists then .error (.fileNotFound "activate")
  else .ok (tryCommands run envDir tempFile reverse GIT_APPLY_COMMANDS)

/-! ## `uv_env.py` — `setup_environment` -/

/-- `pip install p`: a no-op when the package is already present. -/
def insertPkg (l : List String) (p : String) : List String :=
  if p ∈ l then l else l ++ [p]

/-- The installed-package set an environment holds after `setup_environment`
succeeds: `uv venv --clear` recreates the environment empty, the health-check
repair guarantees `pip`, then `pytest` is installed, then the requirements
manifest when it exists (`reqs = some rs`). -/
def setupPackages (reqs : Option (List String)) : List String :=
  let cleared : List String := []
  let withPip := insertPkg cleared "pip"
  let withPytest := insertPkg withPip "pytest"
  match reqs with
  | some rs => rs.foldl insertPkg withPytest
  | none => withPytest

/-- `uv_env.py` `setup_environment` as a transformer of the environment store
(a map from environment name to its installed-package set, `none` when the
environment does not exist). -/
def setup_environment (envs : String → Option (List String)) (name : String)
    (reqs : Option (List String)) : String → Option (List String) :=
  fun n => if n = name then some (setupPackages reqs) else envs n

/-! ## `switch_to_commit` / restore — the two variants -/

/-- One git invocation: its argument vector and whether `subprocess.run` was
called with `check=True` (a non-zero exit then raises `CalledProcessError`). -/
structure GitCmd where
  args : List String
  fatalOnFailure : Bool
  deriving DecidableEq

/-- `run1.py` / `run3.py` `switch_to_commit`: stash (non-fatal), hard-reset to
the target (fatal), checkout the target (fatal), stash pop (non-fatal). -/
def switch_to_commit_run1 (base : String) : List GitCmd :=
  [⟨["git", "stash", "--include-untracked"], false⟩,
   ⟨["git", "reset", "--hard", base], true⟩,
   ⟨["git", "checkout", base], true⟩,
   ⟨["git", "stash", "pop"], false⟩]

/-- `run_eval.py` `switch_to_commit`: hard-reset with no target revision
(resets to the current HEAD), then checkout of the target; both fatal, no
stash handling at all. -/
def switch_to_commit_run_eval (base : String) : List GitCmd :=
  [⟨["git", "reset", "--hard"], true⟩,
   ⟨["git", "checkout", base], true⟩]

/-- The sequence §4.2 of the spec requires of `switchToRevision`, stated from
the spec's words for refinement comparison with the source variants. -/
def specSwitchSequence (base : String) : List GitCmd :=
  [⟨["git", "stash", "--include-untracked"], false⟩,
   ⟨["git", "reset", "--hard", base], true⟩,
   ⟨["git", "checkout", base], true⟩,
   ⟨["git", "stash", "pop"], false⟩]

/-- Execute a git command sequence under an exit-status oracle: a command with
`check=True` and a non-zero status raises (carrying its argument vector), a
non-fatal failure is ignored and execution continues. -/
def runGitSeq (exit : List String → Int) : List GitCmd → Except (List String) Unit
  | [] => .ok ()
  | c :: cs =>
    if c.fatalOnFailure ∧ exit c.args ≠ 0 then .error c.args
    else runGitSeq exit cs

/-! ## Orchestrator `main` functions (`run_eval.py`, `run1.py`) -/

/-- The stages of `run_eval.py` `main`, in source order. `exitCall` is the
unconditional `sys.exit(...)` on line 103; `restoreRev` is the
`git reset --hard current_commit` on line 106, placed after it. -/
inductive EvalStage where
  | loadInstance | setupEnv | switchRev | applyErrorPatch | runFailTests
  | runPassTests | readFixPatch | applyFixPatch | rerunTests | exitCall
  | restoreRev
  deriving DecidableEq

/-- Run a stage list in order, recording executed stages; a stage satisfying
`raises` executes, raises, and terminates the sequence. -/
def execSeq {α : Type} (raises : α → Bool) : List α → List α
  | [] => []
  | s :: rest => if raises s then [s] else s :: execSeq raises rest

/-- The body of `run_eval.py` `main`'s `try` block, in source order:
the restore step is written after the unconditional `sys.exit`. -/
def run_eval_body : List EvalStage :=
  [.loadInstance, .setupEnv, .switchRev, .applyErrorPatch, .runFailTests,
   .runPassTests, .readFixPatch, .applyFixPatch, .rerunTests, .exitCall,
   .restoreRev]

/-- The executed-stage trace of `run_eval.py` `main` under an oracle saying
which stages complete without raising. `sys.exit` raises `SystemExit`, which
`except Exception` does not catch, so it always ends the function; the
`except Exception` handler itself performs no restore. -/
def run_eval_trace (ok : EvalStage → Bool) : List EvalStage :=
  execSeq (fun s => s == .exitCall || !(ok s)) run_eval_body

/-- The stages of `run1.py` `main`, in source order. -/
inductive Run1Stage where
  | loadInstance | getCommit | switchRev | setupEnv | applyErrorPatch
  | restoreRev
  deriving DecidableEq

/-- The body of `run1.py` `main`'s `try` block, in source order. -/
def run1_body : List Run1Stage :=
  [.loadInstance, .getCommit, .switchRev, .setupEnv, .applyErrorPatch]

/-- The executed-stage trace of `run1.py` `main`: the `try` body runs until a
stage raises, then the `finally` block attempts the restore. The restore call
actually executes iff `repo_dir` was assigned (the load stage succeeded, since
the assignment directly follows it and cannot fail) and `original_commit` was
assigned (`get_current_commit` succeeded); otherwise evaluating the call's
arguments raises `NameError`, which the handler inside `finally` swallows, so
no restore command is issued. -/
def run1_main_trace (ok : Run1Stage → Bool) : List Run1Stage :=
  execSeq (fun s => !(ok s)) run1_body ++
    (if ok .loadInstance && ok .getCommit then [.restoreRev] else [])

/-! ## Lemmas about the log-name encoding -/

theorem decode_cons_ne (c : Char) (y : List Char) (h : c ≠ '_') :
    decodeUnderscores (c :: y) = c :: decodeUnderscores y := by
  cases y with
  | nil => simp [decodeUnderscores]
  | cons d y' => simp [decodeUnderscores, h]

theorem decode_replaceDoubleColon (s : List Char) (h : '_' ∉ s) :
    decodeUnderscores (replaceDoubleColon s) = s := by
  induction s using replaceDoubleColon.induct with
  | case1 => rfl
  | case2 c =>
    have hc : c ≠ '_' := by intro hc; exact h (hc ▸ List.mem_singleton_self c)
    simp [replaceDoubleColon, decode_cons_ne c [] hc, decodeUnderscores]
  | case3 c1 c2 rest h2 ih =>
    obtain ⟨e1, e2⟩ := h2
    subst e1; subst e2
    have hrest : '_' ∉ rest := fun hm => h (by simp [hm])
    simp [replaceDoubleColon, decodeUnderscores, ih hrest]
  | case4 c1 c2 rest h2 ih =>
    have hc1 : c1 ≠ '_' := fun hc => h (by simp [hc])
    have htail : '_' ∉ c2 :: rest := fun hm => h (by simp at hm; simp [hm])
    rw [replaceDoubleColon, if_neg h2, decode_cons_ne c1 _ hc1, ih htail]

theorem not_mem_replaceDoubleColon (s : List Char) (c : Char) (hc : c ≠ '_')
    (h : c ∉ s) : c ∉ replaceDoubleColon s := by
  induction s using replaceDoubleColon.induct with
  | case1 => simp [replaceDoubleColon]
  | case2 d =>
    simp [replaceDoubleColon]
    intro hcd; exact h (by simp [hcd])
  | case3 c1 c2 rest h2 ih =>
    have hrest : c ∉ rest := fun hm => h (by simp [hm])
    simp [replaceDoubleColon, h2, hc, ih hrest]
  | case4 c1 c2 rest h2 ih =>
    have htail : c ∉ c2 :: rest := fun hm => h (by simp at hm; simp [hm])
    have hc1 : c ≠ c1 := fun hcc => h (by simp [hcc])
    rw [replaceDoubleColon, if_neg h2]
    simp [hc1, ih htail]

theorem replaceLBracket_eq_self (s : List Char) (h : '[' ∉ s) :
    replaceLBracket s = s := by
  induction s with
  | nil => rfl
  | cons c rest ih =>
    have hc : c ≠ '[' := fun hcc => h (by simp [hcc])
    have hrest : '[' ∉ rest := fun hm => h (by simp [hm])
    simp [replaceLBracket, hc, ih hrest]
    exact ih hrest

theorem dropRBracket_eq_self (s : List Char) (h : ']' ∉ s) :
    dropRBracket s = s := by
  rw [dropRBracket, List.filter_eq_self]
  intro c hc
  have : c ≠ ']' := fun hcc => h (hcc ▸ hc)
  simp [this]

theorem logStem_eq_replaceDoubleColon (s : List Char) (h1 : '[' ∉ s)
    (h2 : ']' ∉ s) : logStem s = replaceDoubleColon s := by
  have hb1 : '[' ∉ replaceDoubleColon s :=
    not_mem_replaceDoubleColon s '[' (by decide) h1
  have hb2 : ']' ∉ replaceDoubleColon s :=
    not_mem_replaceDoubleColon s ']' (by decide) h2
  rw [logStem, replaceLBracket_eq_self _ hb1, dropRBracket_eq_self _ hb2]

/-- C8 (counterexample): the identifiers `a::b` and `a__b` are distinct but
their encoded artifact names coincide — the encoding is not injective. -/
theorem logStem_collision :
    logStem "a::b".toList = logStem "a__b".toList ∧
      "a::b".toList ≠ "a__b".toList := by decide

/-- C8 (amended): restricted to test identifiers that contain none of the
substitute characters `_`, `[`, `]`, the artifact-name encoding
`nodeid.replace('::','__').replace('[','_').replace(']','')` is injective;
identifiers containing those characters can collide. -/
theorem logStem_injective_on_clean (a b : List Char)
    (ha1 : '_' ∉ a) (ha2 : '[' ∉ a) (ha3 : ']' ∉ a)
    (hb1 : '_' ∉ b) (hb2 : '[' ∉ b) (hb3 : ']' ∉ b)
    (h : logStem a = logStem b) : a = b := by
  rw [logStem_eq_replaceDoubleColon a ha2 ha3,
    logStem_eq_replaceDoubleColon b hb2 hb3] at h
  calc a = decodeUnderscores (replaceDoubleColon a) :=
        (decode_replaceDoubleColon a ha1).symm
    _ = decodeUnderscores (replaceDoubleColon b) := by rw [h]
    _ = b := decode_replaceDoubleColon b hb1

theorem logStem_injective_on_clean_witness :
    "x::y".toList = "x::y".toList :=
  logStem_injective_on_clean "x::y".toList "x::y".toList (by decide) (by decide)
    (by decide) (by decide) (by decide) (by decide) rfl

/-- C4: `setup_environment` is idempotent as a transformer of the environment
store — a second provisioning of the same name, with the same requirements
manifest, leaves every environment (its installed dependency set included)
exactly as the first call left it. -/
theorem setup_environment_idempotent (envs : String → Option (List String))
    (name : String) (reqs : Option (List String)) :
    setup_environment (setup_environment envs name reqs) name reqs =
      setup_environment envs name reqs := by
  funext n
  by_cases h : n = name <;> simp [setup_environment, h]

/-! ## Lemmas about the patch-strategy loop -/

theorem tryCommands_exhausted (run : String → Int) (envDir tempFile : String)
    (rev : Bool) (cs : List String)
    (h : ∀ c ∈ cs, run (fullCommand envDir c tempFile rev) ≠ 0) :
    tryCommands run envDir tempFile rev cs = (false, cs) := by
  induction cs with
  | nil => rfl
  | cons c cs ih =>
    have hc := h c (by simp)
    have ih' := ih fun d hd => h d (by simp [hd])
    simp [tryCommands, hc, ih']

theorem tryCommands_first_success (run : String → Int) (envDir tempFile : String)
    (rev : Bool) (pre : List String) (c : String) (post : List String)
    (hpre : ∀ d ∈ pre, run (fullCommand envDir d tempFile rev) ≠ 0)
    (hc : run (fullCommand envDir c tempFile rev) = 0) :
    tryCommands run envDir tempFile rev (pre ++ c :: post) = (true, pre ++ [c]) := by
  induction pre with
  | nil => simp [tryCommands, hc]
  | cons d pre ih =>
    have hd := hpre d (by simp)
    have ih' := ih fun x hx => hpre x (by simp [hx])
    simp [tryCommands, hd, ih']

/-- C2: with the repository and the environment's activate script present,
`apply_patch_to_repo` attempts `GIT_APPLY_COMMANDS` in their fixed order:
when strategy `c` is the first whose process exits 0, it returns `true`
having invoked exactly the strategies up to and including `c` (none after);
when every strategy's process exits non-zero, it returns `false` — without
raising in either case — having invoked them all. -/
theorem apply_patch_strategy_order (run : String → Int) (envDir tempFile : String)
    (reverse : Bool) :
    (∀ pre c post, GIT_APPLY_COMMANDS = pre ++ c :: post →
        (∀ d ∈ pre, run (fullCommand envDir d tempFile reverse) ≠ 0) →
        run (fullCommand envDir c tempFile reverse) = 0 →
        apply_patch_to_repo true true run envDir tempFile reverse =
          .ok (true, pre ++ [c])) ∧
    ((∀ c ∈ GIT_APPLY_COMMANDS, run (fullCommand envDir c tempFile reverse) ≠ 0) →
        apply_patch_to_repo true true run envDir tempFile reverse =
          .ok (false, GIT_APPLY_COMMANDS)) := by
  constructor
  · intro pre c post hsplit hpre hc
    rw [apply_patch_to_repo]
    simp only [Bool.not_true, Bool.false_eq_true, if_false]
    rw [hsplit, tryCommands_first_success run envDir tempFile reverse pre c post hpre hc]
  · intro h
    rw [apply_patch_to_repo]
    simp only [Bool.not_true, Bool.false_eq_true, if_false]
    rw [tryCommands_exhausted run envDir tempFile reverse _ h]

theorem apply_patch_strategy_order_witness :
    apply_patch_to_repo true true
        (fun c => if c = fullCommand "env/pptx" "git apply --verbose --reject"
            "/tmp/p.diff" false then 0 else 1)
        "env/pptx" "/tmp/p.diff" false =
      .ok (true, ["git apply --verbose", "git apply --verbose --reject"]) ∧
    apply_patch_to_repo true true (fun _ => 1) "env/pptx" "/tmp/p.diff" false =
      .ok (false, GIT_APPLY_COMMANDS) := by
  constructor
  · exact (apply_patch_strategy_order _ "env/pptx" "/tmp/p.diff" false).1
      ["git apply --verbose"] "git apply --verbose --reject"
      ["patch --batch --fuzz=5 -p1 -i"] rfl (by decide) (by decide)
  · exact (apply_patch_strategy_order _ "env/pptx" "/tmp/p.diff" false).2
      (by decide)

/-- C6 (counterexample): `run_eval.py`'s `switch_to_commit` does not perform
the claimed sequence — it issues no stash command and its hard-reset carries
no target revision. -/
theorem switch_run_eval_not_spec_sequence :
    switch_to_commit_run_eval "278b47b1" ≠ specSwitchSequence "278b47b1" := by
  decide

/-- C6 (amended): the `switch_to_commit` of `run1.py`/`run3.py` performs
exactly the required sequence — stash including untracked files (non-fatal),
hard-reset to the target (fatal), checkout of the target (fatal), stash
reapply (non-fatal): a run where reset and checkout succeed never raises,
whatever the stash steps' exit statuses, while a failing reset or checkout
raises. `run_eval.py`'s variant instead omits both stash steps and hard-resets
to the current HEAD rather than the target (see the counterexample). -/
theorem switch_run1_sequence (base : String) (exit : List String → Int) :
    switch_to_commit_run1 base = specSwitchSequence base ∧
    (exit ["git", "reset", "--hard", base] = 0 →
      exit ["git", "checkout", base] = 0 →
      runGitSeq exit (switch_to_commit_run1 base) = .ok ()) ∧
    (exit ["git", "reset", "--hard", base] ≠ 0 →
      runGitSeq exit (switch_to_commit_run1 base) =
        .error ["git", "reset", "--hard", base]) ∧
    (exit ["git", "reset", "--hard", base] = 0 →
      exit ["git", "checkout", base] ≠ 0 →
      runGitSeq exit (switch_to_commit_run1 base) =
        .error ["git", "checkout", base]) := by
  refine ⟨rfl, ?_, ?_, ?_⟩
  · intro h1 h2
    simp [runGitSeq, switch_to_commit_run1, h1, h2]
  · intro h1
    simp [runGitSeq, switch_to_commit_run1, h1]
  · intro h1 h2
    simp [runGitSeq, switch_to_commit_run1, h1, h2]

theorem switch_run1_sequence_witness :
    runGitSeq (fun _ => (0 : Int)) (switch_to_commit_run1 "b") = .ok () ∧
    runGitSeq (fun _ => (1 : Int)) (switch_to_commit_run1 "b") =
      .error ["git", "reset", "--hard", "b"] :=
  ⟨(switch_run1_sequence "b" _).2.1 rfl rfl,
   (switch_run1_sequence "b" _).2.2.1 (by decide)⟩

/-! ## Lemmas about orchestrator traces -/

theorem execSeq_subset {α : Type} (raises : α → Bool) :
    ∀ l : List α, ∀ s ∈ execSeq raises l, s ∈ l := by
  intro l
  induction l with
  | nil => simp [execSeq]
  | cons a rest ih =>
    intro s hs
    rw [execSeq] at hs
    by_cases hr : raises a
    · rw [if_pos hr] at hs
      simp at hs
      simp [hs]
    · rw [if_neg hr] at hs
      rcases List.mem_cons.mp hs with h | h
      · simp [h]
      · exact List.mem_cons_of_mem a (ih s h)

theorem execSeq_count_eq_zero {α : Type} [BEq α] [LawfulBEq α]
    (raises : α → Bool) (x : α) (l : List α) (hx : x ∉ l) :
    (execSeq raises l).count x = 0 :=
  List.count_eq_zero.mpr fun h => hx (execSeq_subset raises l x h)

theorem execSeq_count_after_raise {α : Type} [BEq α] [LawfulBEq α]
    (raises : α → Bool) (x e : α) (he : raises e = true) (hx : x ≠ e) :
    ∀ l1 l2 : List α, x ∉ l1 →
      (execSeq raises (l1 ++ e :: l2)).count x = 0 := by
  intro l1
  induction l1 with
  | nil =>
    intro l2 _
    simp [execSeq, he, List.count_cons, hx]
  | cons s l1 ih =>
    intro l2 hmem
    have hxs : x ≠ s := fun h => hmem (by simp [h])
    have hl1 : x ∉ l1 := fun h => hmem (by simp [h])
    rw [List.cons_append, execSeq]
    by_cases hr : raises s
    · rw [if_pos hr]
      simp [List.count_cons, hxs]
    · rw [if_neg hr]
      simp [List.count_cons, hxs, ih l2 hl1]

/-- C1: per orchestrated session, `run_eval.py`'s `main` invokes the
restore-revision step zero times on every exit path — its restore statement
is placed after the unconditional `sys.exit` and is unreachable — while
`run1.py`'s `main` invokes it exactly once whenever the revision snapshot was
captured, on every exit path, exceptions included. -/
theorem restore_invocations (okE : EvalStage → Bool) (ok1 : Run1Stage → Bool)
    (h1 : ok1 .loadInstance = true) (h2 : ok1 .getCommit = true) :
    (run_eval_trace okE).count .restoreRev = 0 ∧
    (run1_main_trace ok1).count .restoreRev = 1 := by
  constructor
  · have hbody : run_eval_body =
        [EvalStage.loadInstance, .setupEnv, .switchRev, .applyErrorPatch,
         .runFailTests, .runPassTests, .readFixPatch, .applyFixPatch,
         .rerunTests] ++ EvalStage.exitCall :: [EvalStage.restoreRev] := rfl
    rw [run_eval_trace, hbody]
    exact execSeq_count_after_raise _ _ EvalStage.exitCall (by simp) (by decide)
      _ _ (by decide)
  · rw [run1_main_trace, h1, h2]
    simp only [Bool.and_self, if_true, List.count_append]
    rw [execSeq_count_eq_zero _ _ run1_body (by decide)]
    rfl

theorem restore_invocations_witness :
    (run_eval_trace (fun _ => true)).count .restoreRev = 0 ∧
    (run1_main_trace (fun _ => true)).count .restoreRev = 1 :=
  restore_invocations (fun _ => true) (fun _ => true) rfl rfl

/-! ## Lemmas about the verification engine -/

/-- C3: a per-test crash is not recorded as `matched = false`. With two
identifiers where the first one's run completes (exit 1, matching
expect-fail) and the second one's run raises, the batch records the *stale*
verdict of the first test — `true` — for the crashed second test; and when
the very first identifier's run raises, the whole batch raises
(`results[nodeid] = passed` reads the never-assigned local `passed`),
aborting evaluation instead of recording `false`. -/
theorem run_tests_crash_mishandled :
    (run_tests_on_repo [] true true ["repo"] "env/pptx"
        (.ofSeq ["t1".toList, "t2".toList]) true
        (fun n => if n = "t1".toList then .normal 1 "out" "err"
          else .crash "OSError")).1 =
      .ok [("t1".toList, true), ("t2".toList, true)] ∧
    (run_tests_on_repo [] true true ["repo"] "env/pptx" (.ofSeq ["t2".toList])
        true (fun _ => .crash "OSError")).1 = .error .nameError :=
  ⟨rfl, rfl⟩

/-- C10: with the repository and environment directories present, every empty
test specification — the empty string, the bracket-only string `"[]"`, or the
empty native sequence — yields the empty verdict mapping without raising and
without touching the filesystem, under either expectation policy. -/
theorem empty_tests_empty_verdict (fs : FS) (repoDir : FsPath) (envDir : String)
    (ef : Bool) (exec : List Char → ExecOutcome) :
    run_tests_on_repo fs true true repoDir envDir (.ofString "".toList) ef exec =
      (.ok [], fs) ∧
    run_tests_on_repo fs true true repoDir envDir (.ofString "[]".toList) ef exec =
      (.ok [], fs) ∧
    run_tests_on_repo fs true true repoDir envDir (.ofSeq []) ef exec =
      (.ok [], fs) :=
  ⟨rfl, rfl, rfl⟩

theorem dictLookup_dictInsert_self (d : Verdicts) (k : List Char) (v : Bool) :
    dictLookup (dictInsert d k v) k = some v := by
  induction d with
  | nil => simp [dictInsert, dictLookup]
  | cons e rest ih =>
    by_cases h : e.1 = k
    · simp [dictInsert, dictLookup, h]
    · simp [dictInsert, dictLookup, h] at ih ⊢
      exact ih

theorem dictLookup_dictInsert_ne (d : Verdicts) (k k' : List Char) (v : Bool)
    (h : k' ≠ k) : dictLookup (dictInsert d k v) k' = dictLookup d k' := by
  have h' : ¬(k = k') := fun he => h he.symm
  induction d with
  | nil => simp [dictInsert, dictLookup, h']
  | cons e rest ih =>
    obtain ⟨k0, v0⟩ := e
    by_cases he : k0 = k
    · subst he
      simp [dictInsert, dictLookup, h']
    · by_cases he' : k0 = k'
      · subst he'
        simp [dictInsert, dictLookup, he]
      · simp [dictInsert, dictLookup, he, he'] at ih ⊢
        exact ih

theorem runTestsLoop_lookup (repoDir : FsPath) (envDir : String) (ef : Bool)
    (exec : List Char → ExecOutcome) (nodeid : List Char) (rc : Int)
    (out err : String) (hx : exec nodeid = .normal rc out err) :
    ∀ (l : List (List Char)) (pv : Option Bool) (res : Verdicts) (fs : FS)
      (results : Verdicts),
      (runTestsLoop repoDir envDir ef exec l pv res fs).1 = .ok results →
      (nodeid ∈ l ∨ dictLookup res nodeid = some (classifyOutcome ef rc)) →
      dictLookup results nodeid = some (classifyOutcome ef rc) := by
  intro l
  induction l with
  | nil =>
    intro pv res fs results hrun hmem
    rw [runTestsLoop] at hrun
    cases hrun
    rcases hmem with h | h
    · cases h
    · exact h
  | cons m rest ih =>
    intro pv res fs results hrun hmem
    rw [runTestsLoop] at hrun
    cases hm : exec m with
    | normal rc' out' err' =>
      rw [hm] at hrun
      by_cases hnm : nodeid = m
      · have hrc : rc' = rc := by rw [← hnm] at hm; rw [hm] at hx; cases hx; rfl
        subst hrc
        refine ih _ _ _ _ hrun (Or.inr ?_)
        rw [hnm]
        exact dictLookup_dictInsert_self res m (classifyOutcome ef rc')
      · refine ih _ _ _ _ hrun ?_
        rcases hmem with h | h
        · rcases List.mem_cons.mp h with h' | h'
          · exact absurd h' hnm
          · exact Or.inl h'
        · exact Or.inr ((dictLookup_dictInsert_ne res m nodeid _ hnm).trans h)
    | crash msg =>
      rw [hm] at hrun
      have hnm : nodeid ≠ m := by
        intro h'; rw [h'] at hx; rw [hx] at hm; cases hm
      cases pv with
      | none => cases hrun
      | some stale =>
        refine ih _ _ _ _ hrun ?_
        rcases hmem with h | h
        · rcases List.mem_cons.mp h with h' | h'
          · exact absurd h' hnm
          · exact Or.inl h'
        · exact Or.inr ((dictLookup_dictInsert_ne res m nodeid _ hnm).trans h)

/-- C5: whenever an identifier in the batch actually executes (its process
completes with return code `rc`) and the batch returns, its recorded verdict
is exactly `rc ≠ 0` under expect-fail and `rc = 0` under expect-pass. -/
theorem verdict_matches_expectation (fs : FS) (repoDir : FsPath)
    (envDir : String) (tests : TestsInput) (ef : Bool)
    (exec : List Char → ExecOutcome) (nodeid : List Char) (rc : Int)
    (out err : String) (results : Verdicts)
    (hx : exec nodeid = .normal rc out err)
    (hmem : nodeid ∈ _normalize_tests tests)
    (hrun : (run_tests_on_repo fs true true repoDir envDir tests ef exec).1 =
      .ok results) :
    dictLookup results nodeid =
      some (if ef then !(rc == 0) else rc == 0) := by
  rw [run_tests_on_repo] at hrun
  simp only [Bool.not_true, Bool.false_eq_true, if_false] at hrun
  exact runTestsLoop_lookup repoDir envDir ef exec nodeid rc out err hx
    (_normalize_tests tests) none [] fs results hrun (Or.inl hmem)

theorem verdict_matches_expectation_witness :
    dictLookup [("t".toList, true)] "t".toList =
      some (if true then !((1 : Int) == 0) else (1 : Int) == 0) :=
  verdict_matches_expectation [] ["repo"] "env" (.ofSeq ["t".toList]) true
    (fun _ => .normal 1 "" "") "t".toList 1 "" "" [("t".toList, true)]
    rfl (by decide) rfl

/-! ## The verification engine's filesystem footprint -/

theorem fsRead_fsWrite_ne (fs : FS) (p q : FsPath) (c : String) (h : p ≠ q) :
    fsRead (fsWrite fs q c) p = fsRead fs p := by
  have h' : ¬(q = p) := fun he => h he.symm
  induction fs with
  | nil => simp [fsWrite, fsRead, h']
  | cons e rest ih =>
    obtain ⟨q0, c0⟩ := e
    by_cases he : q0 = q
    · subst he
      simp [fsWrite, fsRead, h']
    · by_cases he' : q0 = p
      · subst he'
        simp [fsWrite, fsRead, he]
      · simp [fsWrite, fsRead, he, he'] at ih ⊢
        exact ih

theorem underDir_logFilePath (repoDir : FsPath) (nodeid : List Char) :
    underDir (repoDir ++ [".test_logs"]) (logFilePath repoDir nodeid) := by
  constructor
  · have : logFilePath repoDir nodeid =
        (repoDir ++ [".test_logs"]) ++ [String.mk (logStem nodeid) ++ ".log"] := by
      simp [logFilePath]
    rw [this, List.take_left]
  · intro h
    have := congrArg List.length h
    simp [logFilePath] at this

theorem runTestsLoop_confined (repoDir : FsPath) (envDir : String) (ef : Bool)
    (exec : List Char → ExecOutcome) (p : FsPath)
    (hp : ¬underDir (repoDir ++ [".test_logs"]) p) :
    ∀ (l : List (List Char)) (pv : Option Bool) (res : Verdicts) (fs : FS),
      fsRead (runTestsLoop repoDir envDir ef exec l pv res fs).2 p = fsRead fs p := by
  intro l
  induction l with
  | nil => intro pv res fs; rfl
  | cons m rest ih =>
    intro pv res fs
    have hpm : p ≠ logFilePath repoDir m := by
      intro he
      exact hp (he ▸ underDir_logFilePath repoDir m)
    rw [runTestsLoop]
    cases hm : exec m with
    | normal rc out err =>
      rw [ih _ _ _, fsRead_fsWrite_ne _ _ _ _ hpm]
    | crash msg =>
      cases pv with
      | none => exact fsRead_fsWrite_ne _ _ _ _ hpm
      | some stale => rw [ih _ _ _, fsRead_fsWrite_ne _ _ _ _ hpm]

/-- C9 (counterexample): an invocation of `run_tests_on_repo` does change the
on-disk content of the repository — it creates the diagnostic log under
`repo/.test_logs`, so the tree after the call differs from the tree before. -/
theorem run_tests_mutates_tree :
    (run_tests_on_repo [] true true ["repo"] "env" (.ofSeq ["t".toList]) true
      (fun _ => .normal 0 "" "")).2 ≠ ([] : FS) := by decide

/-- C9 (amended): the verification engine's own writes are confined to the
harness-owned `.test_logs` subdirectory of the repository: every path not
strictly inside `repo_dir/.test_logs` has the same content after any
invocation of `run_tests_on_repo` as before it. -/
theorem run_tests_writes_confined (fs : FS) (repoIsDir envExists : Bool)
    (repoDir : FsPath) (envDir : String) (tests : TestsInput) (ef : Bool)
    (exec : List Char → ExecOutcome) (p : FsPath)
    (hp : ¬underDir (repoDir ++ [".test_logs"]) p) :
    fsRead (run_tests_on_repo fs repoIsDir envExists repoDir envDir tests ef exec).2 p =
      fsRead fs p := by
  rw [run_tests_on_repo]
  by_cases h1 : repoIsDir
  · by_cases h2 : envExists
    · simp only [h1, h2, Bool.not_true, Bool.false_eq_true, if_false]
      exact runTestsLoop_confined repoDir envDir ef exec p hp _ _ _ _
    · simp [h1, h2]
  · simp [h1]

theorem run_tests_writes_confined_witness :
    fsRead (run_tests_on_repo [(["repo", "src.py"], "x = 1")] true true ["repo"]
        "env" (.ofSeq ["t".toList]) true (fun _ => .normal 0 "" "")).2
      ["repo", "src.py"] =
      fsRead [(["repo", "src.py"], "x = 1")] ["repo", "src.py"] :=
  run_tests_writes_confined [(["repo", "src.py"], "x = 1")] true true ["repo"]
    "env" (.ofSeq ["t".toList]) true (fun _ => .normal 0 "" "")
    ["repo", "src.py"] (fun h => absurd h.1 (by decide))

/-! ## Normalization of the two test-batch representations -/

theorem pyStrip_cons_space (p : List Char) : pyStrip (' ' :: p) = pyStrip p := by
  simp [pyStrip, List.dropWhile_cons, isPySpace]

theorem pyStrip_bracketed (xs : List Char) :
    pyStrip ('[' :: (xs ++ [']'])) = '[' :: (xs ++ [']']) := by
  simp [pyStrip, List.dropWhile_cons, isPySpace, List.reverse_append]

theorem splitChar_ne_nil (sep : Char) (l : List Char) : splitChar sep l ≠ [] := by
  induction l with
  | nil => simp [splitChar]
  | cons c rest ih =>
    rw [splitChar]
    by_cases h : c = sep
    · simp [h]
    · rw [if_neg h]
      cases hs : splitChar sep rest with
      | nil => simp
      | cons p ps => simp

theorem splitChar_append (a : List Char) (ha : ',' ∉ a) (b : List Char) :
    splitChar ',' (a ++ ',' :: b) = a :: splitChar ',' b := by
  induction a with
  | nil => simp [splitChar]
  | cons c a' ih =>
    have hc : ¬(c = ',') := fun hcc => ha (by simp [hcc])
    have ha' : ',' ∉ a' := fun hm => ha (by simp [hm])
    rw [List.cons_append, splitChar, if_neg hc, ih ha']

theorem splitChar_single (l : List Char) (h : ',' ∉ l) :
    splitChar ',' l = [l] := by
  induction l with
  | nil => rfl
  | cons c l' ih =>
    have hc : ¬(c = ',') := fun hcc => h (by simp [hcc])
    have h' : ',' ∉ l' := fun hm => h (by simp [hm])
    rw [splitChar, if_neg hc, ih h']

theorem length_dropWhile_le (p : Char → Bool) (l : List Char) :
    (l.dropWhile p).length ≤ l.length := by
  induction l with
  | nil => simp [List.dropWhile]
  | cons c t ih =>
    rw [List.dropWhile_cons]
    by_cases h : p c
    · simp [h]; omega
    · simp [h]

theorem head_not_space_of_pyStrip_eq (id : List Char) (h : pyStrip id = id) :
    ∀ c, id.head? = some c → isPySpace c = false := by
  intro c hc
  cases id with
  | nil => cases hc
  | cons c0 t =>
    have hcc : c0 = c := by cases hc; rfl
    subst hcc
    by_contra hsp
    have hsp' : isPySpace c0 = true := by
      cases hb : isPySpace c0
      · exact absurd hb hsp
      · rfl
    have hlen : (pyStrip (c0 :: t)).length ≤ t.length := by
      rw [pyStrip, List.dropWhile_cons, if_pos (by simp [hsp'])]
      calc ((t.dropWhile isPySpace).reverse.dropWhile isPySpace).reverse.length
          = ((t.dropWhile isPySpace).reverse.dropWhile isPySpace).length := by
            rw [List.length_reverse]
        _ ≤ (t.dropWhile isPySpace).reverse.length := length_dropWhile_le _ _
        _ = (t.dropWhile isPySpace).length := by rw [List.length_reverse]
        _ ≤ t.length := length_dropWhile_le _ _
    rw [h] at hlen
    simp at hlen

theorem last_not_space_of_pyStrip_eq (id : List Char) (h : pyStrip id = id) :
    ∀ c, id.getLast? = some c → isPySpace c = false := by
  intro c hc
  by_contra hsp
  have hsp' : isPySpace c = true := by
    cases hb : isPySpace c
    · exact absurd hb hsp
    · rfl
  have hdw : id.dropWhile isPySpace = id := by
    cases id with
    | nil => rfl
    | cons c0 t =>
      rw [List.dropWhile_cons, if_neg]
      simp [head_not_space_of_pyStrip_eq (c0 :: t) h c0 rfl]
  have h2 : id.reverse.dropWhile isPySpace = id.reverse := by
    have h' := h
    rw [pyStrip, hdw] at h'
    have h'' := congrArg List.reverse h'
    rwa [List.reverse_reverse] at h''
  cases hrev : id.reverse with
  | nil =>
    rw [List.reverse_eq_nil_iff] at hrev
    subst hrev; cases hc
  | cons c1 r =>
    have hc1 : c1 = c := by
      have hh : id.reverse.head? = id.getLast? := List.head?_reverse id
      rw [hrev, hc] at hh
      cases hh; rfl
    subst hc1
    rw [hrev, List.dropWhile_cons, if_pos (by simp [hsp'])] at h2
    have hlen := congrArg List.length h2
    have hle := length_dropWhile_le isPySpace r
    simp at hlen
    omega

theorem pyStrip_eq_self_of_ends (s : List Char)
    (h1 : ∀ c, s.head? = some c → isPySpace c = false)
    (h2 : ∀ c, s.getLast? = some c → isPySpace c = false) : pyStrip s = s := by
  have hdw : s.dropWhile isPySpace = s := by
    cases s with
    | nil => rfl
    | cons c t =>
      rw [List.dropWhile_cons, if_neg]
      simp [h1 c rfl]
  rw [pyStrip, hdw]
  have hdw2 : s.reverse.dropWhile isPySpace = s.reverse := by
    cases hr : s.reverse with
    | nil => rfl
    | cons c t =>
      rw [List.dropWhile_cons, if_neg]
      have hg : s.getLast? = some c := by rw [← List.head?_reverse, hr]; rfl
      simp [h2 c hg]
  rw [hdw2, List.reverse_reverse]

theorem joinComma_head_not_space (ids : List (List Char))
    (h : ∀ id ∈ ids, pyStrip id = id ∧ id ≠ []) :
    ∀ c, (joinComma ids).head? = some c → isPySpace c = false := by
  cases ids with
  | nil => intro c hc; cases hc
  | cons id rest =>
    intro c hc
    have hid := h id (by simp)
    have hh : (joinComma (id :: rest)).head? = id.head? := by
      cases rest with
      | nil => rfl
      | cons id2 r =>
        rw [show joinComma (id :: id2 :: r) =
          id ++ ',' :: ' ' :: joinComma (id2 :: r) from rfl]
        cases id with
        | nil => exact absurd rfl hid.2
        | cons c0 t => rfl
    rw [hh] at hc
    exact head_not_space_of_pyStrip_eq id hid.1 c hc

theorem joinComma_ne_nil (id : List Char) (rest : List (List Char))
    (h : id ≠ []) : joinComma (id :: rest) ≠ [] := by
  cases rest with
  | nil => exact h
  | cons id2 r =>
    rw [show joinComma (id :: id2 :: r) =
      id ++ ',' :: ' ' :: joinComma (id2 :: r) from rfl]
    simp

theorem joinComma_last_not_space (ids : List (List Char))
    (h : ∀ id ∈ ids, pyStrip id = id ∧ id ≠ []) :
    ∀ c, (joinComma ids).getLast? = some c → isPySpace c = false := by
  induction ids using joinComma.induct with
  | case1 => intro c hc; cases hc
  | case2 id =>
    intro c hc
    exact last_not_space_of_pyStrip_eq id (h id (by simp)).1 c hc
  | case3 id rest hne ih =>
    cases rest with
    | nil => exact absurd rfl hne
    | cons id2 r =>
      intro c hc
      have hrest : ∀ x ∈ id2 :: r, pyStrip x = x ∧ x ≠ [] :=
        fun x hx => h x (List.mem_cons_of_mem id hx)
      apply ih hrest c
      rw [show joinComma (id :: id2 :: r) =
        id ++ ',' :: ' ' :: joinComma (id2 :: r) from rfl] at hc
      rw [List.getLast?_append_of_ne_nil id (by simp)] at hc
      rw [show (',' :: ' ' :: joinComma (id2 :: r)) =
        [',', ' '] ++ joinComma (id2 :: r) from rfl] at hc
      rw [List.getLast?_append_of_ne_nil [',', ' ']
        (joinComma_ne_nil id2 r (hrest id2 (by simp)).2)] at hc
      exact hc

theorem normalize_pieces (ids : List (List Char))
    (h : ∀ id ∈ ids, pyStrip id = id ∧ id ≠ [] ∧ ',' ∉ id) :
    ((splitChar ',' (joinComma ids)).map pyStrip).filter (· ≠ []) = ids := by
  induction ids using joinComma.induct with
  | case1 => rfl
  | case2 id =>
    have hid := h id (by simp)
    rw [show joinComma [id] = id from rfl, splitChar_single id hid.2.2]
    simp [hid.1, hid.2.1]
  | case3 id rest hne ih =>
    cases rest with
    | nil => exact absurd rfl hne
    | cons id2 rest' =>
      have hid := h id (by simp)
      have hrest : ∀ x ∈ id2 :: rest', pyStrip x = x ∧ x ≠ [] ∧ ',' ∉ x :=
        fun x hx => h x (List.mem_cons_of_mem id hx)
      have hjoin : joinComma (id :: id2 :: rest') =
          id ++ ',' :: (' ' :: joinComma (id2 :: rest')) := rfl
      rw [hjoin, splitChar_append id hid.2.2 _]
      obtain ⟨p, ps, hps⟩ :
          ∃ p ps, splitChar ',' (joinComma (id2 :: rest')) = p :: ps := by
        cases hs : splitChar ',' (joinComma (id2 :: rest')) with
        | nil => exact absurd hs (splitChar_ne_nil ',' _)
        | cons p ps => exact ⟨p, ps, rfl⟩
      have hsp : splitChar ',' (' ' :: joinComma (id2 :: rest')) =
          (' ' :: p) :: ps := by
        rw [splitChar, if_neg (by decide), hps]
      rw [hsp]
      have ihr := ih hrest
      rw [hps] at ihr
      simp only [List.map_cons] at ihr ⊢
      rw [pyStrip_cons_space, hid.1,
        List.filter_cons_of_pos (by simp [hid.2.1])]
      exact congrArg (id :: ·) ihr

/-- C7: normalization is total and lossless for both accepted representations
and the two are interchangeable: for any batch of well-formed identifiers
(already stripped, non-empty, comma-free), the bracket-wrapped delimited
string form normalizes to exactly the same identifier list as the native
sequence form; so does the non-wrapped delimited string form, provided the
joined string does not itself begin with `[` and end with `]` (in that case
the code strips those identifier characters as if they were the wrapper);
and `run_tests_on_repo` returns the identical verdict mapping and filesystem
for the representations. -/
theorem normalize_interchangeable (ids : List (List Char))
    (h : ∀ id ∈ ids, pyStrip id = id ∧ id ≠ [] ∧ ',' ∉ id) :
    _normalize_tests (.ofString (delimitedForm ids)) =
      _normalize_tests (.ofSeq ids) ∧
    (¬((joinComma ids).head? = some '[' ∧
        (joinComma ids).getLast? = some ']') →
      _normalize_tests (.ofString (joinComma ids)) =
        _normalize_tests (.ofSeq ids)) ∧
    ∀ (fs : FS) (repoDir : FsPath) (envDir : String) (ef : Bool)
      (exec : List Char → ExecOutcome),
      run_tests_on_repo fs true true repoDir envDir
          (.ofString (delimitedForm ids)) ef exec =
        run_tests_on_repo fs true true repoDir envDir (.ofSeq ids) ef exec ∧
      (¬((joinComma ids).head? = some '[' ∧
          (joinComma ids).getLast? = some ']') →
        run_tests_on_repo fs true true repoDir envDir
            (.ofString (joinComma ids)) ef exec =
          run_tests_on_repo fs true true repoDir envDir (.ofSeq ids) ef exec) := by
  have h' : ∀ id ∈ ids, pyStrip id = id ∧ id ≠ [] :=
    fun id hid => ⟨(h id hid).1, (h id hid).2.1⟩
  have heq : _normalize_tests (.ofString (delimitedForm ids)) = ids := by
    show ((splitChar ','
        (if (pyStrip (delimitedForm ids)).head? = some '[' ∧
            (pyStrip (delimitedForm ids)).getLast? = some ']' then
          ((pyStrip (delimitedForm ids)).drop 1).dropLast
        else pyStrip (delimitedForm ids))).map pyStrip).filter (· ≠ []) = ids
    rw [show delimitedForm ids = '[' :: (joinComma ids ++ [']']) from rfl,
      pyStrip_bracketed (joinComma ids)]
    rw [if_pos ⟨rfl, by
      rw [show ('[' :: (joinComma ids ++ [']'])) =
        ('[' :: joinComma ids) ++ [']'] from rfl]
      exact List.getLast?_concat _⟩]
    rw [show (('[' :: (joinComma ids ++ [']'])).drop 1) =
      joinComma ids ++ [']'] from rfl, List.dropLast_concat]
    exact normalize_pieces ids h
  have hstrip : pyStrip (joinComma ids) = joinComma ids :=
    pyStrip_eq_self_of_ends _ (joinComma_head_not_space ids h')
      (joinComma_last_not_space ids h')
  have hequn : ¬((joinComma ids).head? = some '[' ∧
      (joinComma ids).getLast? = some ']') →
      _normalize_tests (.ofString (joinComma ids)) = ids := by
    intro hg
    show ((splitChar ','
        (if (pyStrip (joinComma ids)).head? = some '[' ∧
            (pyStrip (joinComma ids)).getLast? = some ']' then
          ((pyStrip (joinComma ids)).drop 1).dropLast
        else pyStrip (joinComma ids))).map pyStrip).filter (· ≠ []) = ids
    rw [hstrip, if_neg hg]
    exact normalize_pieces ids h
  refine ⟨heq, hequn, ?_⟩
  intro fs repoDir envDir ef exec
  constructor
  · rw [run_tests_on_repo, run_tests_on_repo]
    simp only [Bool.not_true, Bool.false_eq_true, if_false]
    rw [heq]
    rfl
  · intro hg
    rw [run_tests_on_repo, run_tests_on_repo]
    simp only [Bool.not_true, Bool.false_eq_true, if_false]
    rw [hequn hg]
    rfl

theorem normalize_interchangeable_witness :
    _normalize_tests (.ofString "[a::b, c::d]".toList) =
      _normalize_tests (.ofSeq ["a::b".toList, "c::d".toList]) ∧
    _normalize_tests (.ofString "a::b, c::d".toList) =
      _normalize_tests (.ofSeq ["a::b".toList, "c::d".toList]) := by
  have h1 := (normalize_interchangeable ["a::b".toList, "c::d".toList]
    (by decide)).1
  have h2 := (normalize_interchangeable ["a::b".toList, "c::d".toList]
    (by decide)).2.1 (by decide)
  constructor
  · have e : delimitedForm ["a::b".toList, "c::d".toList] =
        "[a::b, c::d]".toList := by decide
    rw [e] at h1
    exact h1
  · have e : joinComma ["a::b".toList, "c::d".toList] =
        "a::b, c::d".toList := by decide
    rw [e] at h2
    exact h2

end UvSmith
